import Mathlib

/-!
Verification of the k-means image-compressor (`src/main.rs`).

Modelling conventions:
* `u8` pixel channels are `ℕ`; `f64` centroid channels are `ℚ` (the program only
  ever adds, subtracts, multiplies, divides and compares them, so exact rational
  arithmetic is the idealised model of the floating-point computation).
* The only non-rational operation is `sqrt` inside `Pixel.distance`; the program
  uses distances solely in order comparisons, and `Real.sqrt` is strictly
  monotone on nonnegatives, so the executable embedding compares squared
  distances (`distSq`) and bridge lemmas relate them to the real distance.
* `rayon` parallel loops write disjoint slots (assignment) or accumulate into
  per-cluster groups whose fold (sum and count over `ℚ`) is order-insensitive,
  so they are modelled as sequential maps / in-order grouping.
* A Rust panic (out-of-bounds index, empty random range) is modelled by
  `Option`: `none` is the panicking run.
-/

/-- Sample: one input pixel, three `u8` channels. -/
structure Pixel where
  r : ℕ
  g : ℕ
  b : ℕ
deriving DecidableEq

/-- Centroid: three `f64` channels, modelled exactly as rationals. -/
structure Centroid where
  r : ℚ
  g : ℚ
  b : ℚ
deriving DecidableEq

/-- Default pixel used only to totalise list indexing in statements. -/
def pixdef : Pixel := ⟨0, 0, 0⟩

/-- Default centroid used only to totalise list indexing in statements. -/
def cdef : Centroid := ⟨0, 0, 0⟩

/-- Squared Euclidean distance between a pixel and a centroid, the radicand of
`Pixel::distance` in the source. -/
def distSq (p : Pixel) (c : Centroid) : ℚ :=
  ((p.r : ℚ) - c.r) ^ 2 + ((p.g : ℚ) - c.g) ^ 2 + ((p.b : ℚ) - c.b) ^ 2

/-- The source `Pixel::distance`: square root of the sum of squared channel
differences, as a real number. -/
noncomputable def Pixel.distance (p : Pixel) (c : Centroid) : ℝ :=
  Real.sqrt (((p.r : ℝ) - (c.r : ℚ)) ^ 2 + ((p.g : ℝ) - (c.g : ℚ)) ^ 2
    + ((p.b : ℝ) - (c.b : ℚ)) ^ 2)

/-- A pixel as a point of 3-dimensional Euclidean space. -/
noncomputable def pixelToE (p : Pixel) : EuclideanSpace ℝ (Fin 3) :=
  ![(p.r : ℝ), (p.g : ℝ), (p.b : ℝ)]

/-- A centroid as a point of 3-dimensional Euclidean space. -/
noncomputable def centroidToE (c : Centroid) : EuclideanSpace ℝ (Fin 3) :=
  ![((c.r : ℚ) : ℝ), ((c.g : ℚ) : ℝ), ((c.b : ℚ) : ℝ)]

/-- The source `Centroid::is_close`: every channel difference strictly below the
threshold `1e-5`. -/
def Centroid.is_close (a b : Centroid) : Bool :=
  decide (|a.r - b.r| < 1e-5) && decide (|a.g - b.g| < 1e-5) &&
    decide (|a.b - b.b| < 1e-5)

/-- The convergence test of `KMeans::run`: zip the new centroids with the
previous ones and require `is_close` for every pair. -/
def allClose (news olds : List Centroid) : Bool :=
  (news.zip olds).all (fun ab => ab.1.is_close ab.2)

/-- Inner loop of the assignment step in `KMeans::run`: scan the centroids with
a running minimum distance (`none` models the initial `f64::MAX`, which every
actual distance is below) and the index of the current best centroid.
Comparisons of `sqrt`-distances are modelled by their squares. -/
def assignGo (p : Pixel) : List Centroid → ℕ → Option ℚ → ℕ → ℕ
  | [], _, _, best => best
  | c :: rest, j, minD, best =>
    match minD with
    | none => assignGo p rest (j + 1) (some (distSq p c)) j
    | some m =>
      if distSq p c < m then assignGo p rest (j + 1) (some (distSq p c)) j
      else assignGo p rest (j + 1) (some m) best

/-- Index of the closest centroid chosen for one sample by the assignment step
(`min_distance = f64::MAX`, `closest_centroid = 0`, update on strictly smaller
distance). -/
def assign (cs : List Centroid) (p : Pixel) : ℕ :=
  assignGo p cs 0 none 0

/-- The whole assignment step: one independent nearest-centroid computation per
sample (the `par_iter_mut` writes disjoint slots, so it is a map). -/
def assignStep (cs : List Centroid) (pixels : List Pixel) : List ℕ :=
  pixels.map (assign cs)

/-- Pixels pushed into the group of centroid `j` by `KMeans::update_centroids`:
those whose assignment equals `j`, in input order (the mutex only guards the
push; the later fold is order-insensitive). -/
def groupPixels : List ℕ → List Pixel → ℕ → List Pixel
  | [], _, _ => []
  | _, [], _ => []
  | a :: as_, p :: ps, j =>
    if a = j then p :: groupPixels as_ ps j else groupPixels as_ ps j

/-- New centroid of one group: fold the channel sums and the count, then divide;
an empty group yields the zero centroid. -/
def centroidOfGroup (g : List Pixel) : Centroid :=
  if 0 < g.length then
    ⟨(g.map (fun p => (p.r : ℚ))).sum / g.length,
     (g.map (fun p => (p.g : ℚ))).sum / g.length,
     (g.map (fun p => (p.b : ℚ))).sum / g.length⟩
  else ⟨0, 0, 0⟩

/-- The source `KMeans::update_centroids`: group the pixels by assignment into
`k` groups and take each group's per-channel mean. -/
def update_centroids (k : ℕ) (assignments : List ℕ) (pixels : List Pixel) :
    List Centroid :=
  (List.range k).map (fun j => centroidOfGroup (groupPixels assignments pixels j))

/-- Per-channel mean of a whole sample list (sum divided by count). -/
def meanCentroid (pixels : List Pixel) : Centroid :=
  ⟨(pixels.map (fun p => (p.r : ℚ))).sum / pixels.length,
   (pixels.map (fun p => (p.g : ℚ))).sum / pixels.length,
   (pixels.map (fun p => (p.b : ℚ))).sum / pixels.length⟩

/-- One iteration of `KMeans::run`: assignment against the frozen snapshot of
the current centroids, then aggregation with `k = self.centroids.len()`. -/
def kmeansStep (pixels : List Pixel) (cs : List Centroid) : List Centroid :=
  update_centroids cs.length (assignStep cs pixels) pixels

/-- Iterate `kmeansStep` a given number of times. -/
def stepN (pixels : List Pixel) : ℕ → List Centroid → List Centroid
  | 0, cs => cs
  | t + 1, cs => stepN pixels t (kmeansStep pixels cs)

/-- The driver loop of `KMeans::run` with explicit fuel: run one iteration,
stop when all new centroids are close to the previous ones, and otherwise
continue with the new centroids until the fuel (iteration cap) is spent. -/
def runAux (pixels : List Pixel) : ℕ → List Centroid → List Centroid
  | 0, cs => cs
  | n + 1, cs =>
    let cs' := kmeansStep pixels cs
    if allClose cs' cs then cs' else runAux pixels n cs'

/-- Number of iterations the driver loop actually executes before stopping. -/
def runCount (pixels : List Pixel) : ℕ → List Centroid → ℕ
  | 0, _ => 0
  | n + 1, cs =>
    let cs' := kmeansStep pixels cs
    if allClose cs' cs then 1 else runCount pixels n cs' + 1

/-- `KMeans::run` as called from `main`: the iteration cap is 100. -/
def KMeans.run (pixels : List Pixel) (cs : List Centroid) : List Centroid :=
  runAux pixels 100 cs

/-- The `reduce` underlying `Iterator::min_by` in `closest_centroid_index`:
the accumulator is replaced exactly when its distance is strictly greater than
the candidate's (`Ordering::Greater`), so ties keep the earlier element. -/
def minByGo (p : Pixel) : List Centroid → ℕ → ℕ × Centroid → ℕ × Centroid
  | [], _, acc => acc
  | c :: rest, j, acc =>
    if distSq p c < distSq p acc.2 then minByGo p rest (j + 1) (j, c)
    else minByGo p rest (j + 1) acc

/-- The source `closest_centroid_index`: `enumerate().min_by(..)` over the
centroids, `unwrap_or(0)` on an empty list. -/
def closest_centroid_index (p : Pixel) : List Centroid → ℕ
  | [] => 0
  | c :: rest => (minByGo p rest 1 (0, c)).1

/-- The Rust cast `f64 as u8`: truncate toward zero and saturate to `[0,255]`
(for negative values truncation and the clamp to 0 agree, so `Int.floor` with
the clamp is exact). -/
def quantizeChannel (q : ℚ) : ℕ :=
  Int.toNat (min 255 (max 0 (Int.floor q)))

/-- Output color of one centroid in `reconstruct_image`: each channel cast
`as u8`. -/
def quantizePixel (c : Centroid) : Pixel :=
  ⟨quantizeChannel c.r, quantizeChannel c.g, quantizeChannel c.b⟩

/-- The source `reconstruct_image`, as the row-major list of output pixels:
for each sample, look up the centroid at `closest_centroid_index` (indexing out
of bounds — only possible when the centroid list is empty — is `none`) and
quantize its channels. -/
def reconstruct_image (cs : List Centroid) : List Pixel → Option (List Pixel)
  | [] => some []
  | p :: ps =>
    match cs[closest_centroid_index p cs]?, reconstruct_image cs ps with
    | some c, some rest => some (quantizePixel c :: rest)
    | _, _ => none

/-- Pixel drawn at random turned into an initial centroid. -/
def pixelToCentroid (p : Pixel) : Centroid :=
  ⟨(p.r : ℚ), (p.g : ℚ), (p.b : ℚ)⟩

/-- The source `KMeans::new`: `Uniform::from(0..pixels.len())` panics on an
empty range (`none`); otherwise each of the `k` centroids copies a sample drawn
by the random source `pick` (reduced into range, as the real sampler is). -/
def kmeansNew (k : ℕ) (pixels : List Pixel) (pick : ℕ → ℕ) :
    Option (List Centroid) :=
  if pixels.length = 0 then none
  else some ((List.range k).map
    (fun t => pixelToCentroid (pixels.getD (pick t % pixels.length) pixdef)))

/-- Panic-aware `update_centroids`: `pixel_groups[assignment]` indexes out of
bounds (`none`) as soon as some assignment is not below `k`. -/
def updateChecked (k : ℕ) (assignments : List ℕ) (pixels : List Pixel) :
    Option (List Centroid) :=
  if assignments.all (fun a => decide (a < k)) then
    some (update_centroids k assignments pixels)
  else none

/-- Panic-aware driver loop. -/
def runChecked (pixels : List Pixel) : ℕ → List Centroid → Option (List Centroid)
  | 0, cs => some cs
  | n + 1, cs =>
    match updateChecked cs.length (assignStep cs pixels) pixels with
    | none => none
    | some cs' => if allClose cs' cs then some cs' else runChecked pixels n cs'

/-- The whole program after decoding: initialize, run 100 capped iterations,
reconstruct; `none` models a panic anywhere along the way. -/
def pipeline (k : ℕ) (pixels : List Pixel) (pick : ℕ → ℕ) :
    Option (List Pixel) :=
  match kmeansNew k pixels pick with
  | none => none
  | some cs0 =>
    match runChecked pixels 100 cs0 with
    | none => none
    | some csF => reconstruct_image csF pixels

/-! ### Bridging squared distances and the real Euclidean distance -/

lemma distSq_nonneg (p : Pixel) (c : Centroid) : 0 ≤ distSq p c := by
  unfold distSq; positivity

lemma distance_eq_sqrt_distSq (p : Pixel) (c : Centroid) :
    Pixel.distance p c = Real.sqrt ((distSq p c : ℚ) : ℝ) := by
  unfold Pixel.distance distSq
  congr 1
  push_cast
  ring

lemma distance_lt_distance_iff (p : Pixel) (c c' : Centroid) :
    Pixel.distance p c < Pixel.distance p c' ↔ distSq p c < distSq p c' := by
  rw [distance_eq_sqrt_distSq, distance_eq_sqrt_distSq]
  constructor
  · intro h
    by_contra hle
    push_neg at hle
    have hle' : ((distSq p c' : ℚ) : ℝ) ≤ ((distSq p c : ℚ) : ℝ) := by exact_mod_cast hle
    exact absurd (Real.sqrt_le_sqrt hle') (not_le.mpr h)
  · intro h
    have h0 : (0 : ℝ) ≤ ((distSq p c : ℚ) : ℝ) := by exact_mod_cast distSq_nonneg p c
    have h' : ((distSq p c : ℚ) : ℝ) < ((distSq p c' : ℚ) : ℝ) := by exact_mod_cast h
    exact Real.sqrt_lt_sqrt h0 h'

lemma distance_le_distance_iff (p : Pixel) (c c' : Centroid) :
    Pixel.distance p c ≤ Pixel.distance p c' ↔ distSq p c ≤ distSq p c' := by
  rw [← not_lt, ← not_lt, distance_lt_distance_iff]

/-! ### Specification of the assignment scan -/

/-- Characterisation of the assignment scan once a finite running minimum `m`
is installed: either nothing in the remaining list beats `m` and the incumbent
`best` survives, or the result is the offset of the first index attaining the
strict minimum of the remaining distances. -/
lemma assignGo_some_spec (p : Pixel) (cs : List Centroid) :
    ∀ (j best : ℕ) (m : ℚ),
    (assignGo p cs j (some m) best = best ∧ ∀ c ∈ cs, m ≤ distSq p c)
    ∨ (∃ i, i < cs.length ∧ assignGo p cs j (some m) best = j + i ∧
        distSq p (cs.getD i cdef) < m ∧
        (∀ c ∈ cs, distSq p (cs.getD i cdef) ≤ distSq p c) ∧
        (∀ i', i' < i → distSq p (cs.getD i cdef) < distSq p (cs.getD i' cdef))) := by
  induction cs with
  | nil =>
    intro j best m
    left
    exact ⟨rfl, by simp⟩
  | cons c rest ih =>
    intro j best m
    by_cases hlt : distSq p c < m
    · have houter : assignGo p (c :: rest) j (some m) best
          = assignGo p rest (j + 1) (some (distSq p c)) j := by
        simp [assignGo, hlt]
      rcases ih (j + 1) j (distSq p c) with ⟨heq, hmin⟩ | ⟨i, hi, heq, hbeat, hmin, hties⟩
      · right
        refine ⟨0, by simp, by rw [houter, heq, Nat.add_zero], ?_, ?_, ?_⟩
        · rw [List.getD_cons_zero]; exact hlt
        · intro x hx
          rw [List.getD_cons_zero]
          rcases List.mem_cons.mp hx with rfl | hx
          · exact le_refl _
          · exact hmin x hx
        · intro i' hi'
          exact absurd hi' (Nat.not_lt_zero _)
      · right
        refine ⟨i + 1, by simp only [List.length_cons]; omega, ?_, ?_, ?_, ?_⟩
        · rw [houter, heq]; omega
        · rw [List.getD_cons_succ]; exact lt_trans hbeat hlt
        · intro x hx
          rw [List.getD_cons_succ]
          rcases List.mem_cons.mp hx with rfl | hx
          · exact le_of_lt hbeat
          · exact hmin x hx
        · intro i' hi'
          match i', hi' with
          | 0, _ =>
            rw [List.getD_cons_succ, List.getD_cons_zero]
            exact hbeat
          | i'' + 1, hi' =>
            rw [List.getD_cons_succ, List.getD_cons_succ]
            exact hties i'' (by omega)
    · have houter : assignGo p (c :: rest) j (some m) best
          = assignGo p rest (j + 1) (some m) best := by
        simp [assignGo, hlt]
      have hm_le : m ≤ distSq p c := le_of_not_lt hlt
      rcases ih (j + 1) best m with ⟨heq, hmin⟩ | ⟨i, hi, heq, hbeat, hmin, hties⟩
      · left
        refine ⟨by rw [houter, heq], ?_⟩
        intro x hx
        rcases List.mem_cons.mp hx with rfl | hx
        · exact hm_le
        · exact hmin x hx
      · right
        refine ⟨i + 1, by simp only [List.length_cons]; omega, ?_, ?_, ?_, ?_⟩
        · rw [houter, heq]; omega
        · rw [List.getD_cons_succ]; exact hbeat
        · intro x hx
          rw [List.getD_cons_succ]
          rcases List.mem_cons.mp hx with rfl | hx
          · exact le_trans (le_of_lt hbeat) hm_le
          · exact hmin x hx
        · intro i' hi'
          match i', hi' with
          | 0, _ =>
            rw [List.getD_cons_succ, List.getD_cons_zero]
            exact lt_of_lt_of_le hbeat hm_le
          | i'' + 1, hi' =>
            rw [List.getD_cons_succ, List.getD_cons_succ]
            exact hties i'' (by omega)

/-- The assignment of one sample: an in-range index whose centroid attains the
minimum squared distance, and the least such index (strictly smaller distance
than every earlier index). -/
lemma assign_spec (cs : List Centroid) (p : Pixel) (hcs : cs ≠ []) :
    assign cs p < cs.length ∧
    (∀ c ∈ cs, distSq p (cs.getD (assign cs p) cdef) ≤ distSq p c) ∧
    (∀ m, m < assign cs p → distSq p (cs.getD (assign cs p) cdef)
      < distSq p (cs.getD m cdef)) := by
  match cs with
  | [] => exact absurd rfl hcs
  | c :: rest =>
    have hassign : assign (c :: rest) p = assignGo p rest 1 (some (distSq p c)) 0 := rfl
    rcases assignGo_some_spec p rest 1 0 (distSq p c) with
      ⟨heq, hmin⟩ | ⟨i, hi, heq, hbeat, hmin, hties⟩
    · rw [hassign, heq]
      refine ⟨by simp, ?_, ?_⟩
      · intro x hx
        rw [List.getD_cons_zero]
        rcases List.mem_cons.mp hx with rfl | hx
        · exact le_refl _
        · exact hmin x hx
      · intro m hm
        exact absurd hm (Nat.not_lt_zero _)
    · have h1i : 1 + i = i + 1 := Nat.add_comm 1 i
      rw [hassign, heq, h1i]
      refine ⟨by simp only [List.length_cons]; omega, ?_, ?_⟩
      · intro x hx
        rw [List.getD_cons_succ]
        rcases List.mem_cons.mp hx with rfl | hx
        · exact le_of_lt hbeat
        · exact hmin x hx
      · intro m hm
        match m, hm with
        | 0, _ =>
          rw [List.getD_cons_succ, List.getD_cons_zero]
          exact hbeat
        | m' + 1, hm =>
          rw [List.getD_cons_succ, List.getD_cons_succ]
          exact hties m' (by omega)

/-! ### Specification of the reconstruction scan (`min_by`) -/

/-- Characterisation of the `min_by` reduce: either no remaining centroid is
strictly closer than the accumulator (ties keep the accumulator, i.e. the
earlier element), or the result is the first index attaining the strict
minimum of the remaining distances. -/
lemma minByGo_spec (p : Pixel) (cs : List Centroid) :
    ∀ (j : ℕ) (acc : ℕ × Centroid),
    (minByGo p cs j acc = acc ∧ ∀ c ∈ cs, distSq p acc.2 ≤ distSq p c)
    ∨ (∃ i, i < cs.length ∧ minByGo p cs j acc = (j + i, cs.getD i cdef) ∧
        distSq p (cs.getD i cdef) < distSq p acc.2 ∧
        (∀ c ∈ cs, distSq p (cs.getD i cdef) ≤ distSq p c) ∧
        (∀ i', i' < i → distSq p (cs.getD i cdef) < distSq p (cs.getD i' cdef))) := by
  induction cs with
  | nil =>
    intro j acc
    left
    exact ⟨rfl, by simp⟩
  | cons c rest ih =>
    intro j acc
    by_cases hlt : distSq p c < distSq p acc.2
    · have houter : minByGo p (c :: rest) j acc = minByGo p rest (j + 1) (j, c) := by
        simp [minByGo, hlt]
      rcases ih (j + 1) (j, c) with ⟨heq, hmin⟩ | ⟨i, hi, heq, hbeat, hmin, hties⟩
      · right
        refine ⟨0, by simp, ?_, ?_, ?_, ?_⟩
        · rw [houter, heq, Nat.add_zero, List.getD_cons_zero]
        · rw [List.getD_cons_zero]; exact hlt
        · intro x hx
          rw [List.getD_cons_zero]
          rcases List.mem_cons.mp hx with rfl | hx
          · exact le_refl _
          · exact hmin x hx
        · intro i' hi'
          exact absurd hi' (Nat.not_lt_zero _)
      · right
        refine ⟨i + 1, by simp only [List.length_cons]; omega, ?_, ?_, ?_, ?_⟩
        · rw [houter, heq, List.getD_cons_succ]
          refine congrArg (fun n => (n, rest.getD i cdef)) (by omega)
        · rw [List.getD_cons_succ]
          exact lt_trans hbeat hlt
        · intro x hx
          rw [List.getD_cons_succ]
          rcases List.mem_cons.mp hx with rfl | hx
          · exact le_of_lt hbeat
          · exact hmin x hx
        · intro i' hi'
          match i', hi' with
          | 0, _ =>
            rw [List.getD_cons_succ, List.getD_cons_zero]
            exact hbeat
          | i'' + 1, hi' =>
            rw [List.getD_cons_succ, List.getD_cons_succ]
            exact hties i'' (by omega)
    · have houter : minByGo p (c :: rest) j acc = minByGo p rest (j + 1) acc := by
        simp [minByGo, hlt]
      have hm_le : distSq p acc.2 ≤ distSq p c := le_of_not_lt hlt
      rcases ih (j + 1) acc with ⟨heq, hmin⟩ | ⟨i, hi, heq, hbeat, hmin, hties⟩
      · left
        refine ⟨by rw [houter, heq], ?_⟩
        intro x hx
        rcases List.mem_cons.mp hx with rfl | hx
        · exact hm_le
        · exact hmin x hx
      · right
        refine ⟨i + 1, by simp only [List.length_cons]; omega, ?_, ?_, ?_, ?_⟩
        · rw [houter, heq, List.getD_cons_succ]
          refine congrArg (fun n => (n, rest.getD i cdef)) (by omega)
        · rw [List.getD_cons_succ]
          exact hbeat
        · intro x hx
          rw [List.getD_cons_succ]
          rcases List.mem_cons.mp hx with rfl | hx
          · exact le_trans (le_of_lt hbeat) hm_le
          · exact hmin x hx
        · intro i' hi'
          match i', hi' with
          | 0, _ =>
            rw [List.getD_cons_succ, List.getD_cons_zero]
            exact lt_of_lt_of_le hbeat hm_le
          | i'' + 1, hi' =>
            rw [List.getD_cons_succ, List.getD_cons_succ]
            exact hties i'' (by omega)

/-- `closest_centroid_index` satisfies the same specification as `assign`: an
in-range first argmin of the squared distances. -/
lemma closest_spec (cs : List Centroid) (p : Pixel) (hcs : cs ≠ []) :
    closest_centroid_index p cs < cs.length ∧
    (∀ c ∈ cs, distSq p (cs.getD (closest_centroid_index p cs) cdef) ≤ distSq p c) ∧
    (∀ m, m < closest_centroid_index p cs →
      distSq p (cs.getD (closest_centroid_index p cs) cdef)
        < distSq p (cs.getD m cdef)) := by
  match cs with
  | [] => exact absurd rfl hcs
  | c :: rest =>
    have hcc : closest_centroid_index p (c :: rest) = (minByGo p rest 1 (0, c)).1 := rfl
    rcases minByGo_spec p rest 1 (0, c) with ⟨heq, hmin⟩ | ⟨i, hi, heq, hbeat, hmin, hties⟩
    · rw [hcc, heq]
      refine ⟨by simp, ?_, ?_⟩
      · intro x hx
        rw [List.getD_cons_zero]
        rcases List.mem_cons.mp hx with rfl | hx
        · exact le_refl _
        · exact hmin x hx
      · intro m hm
        exact absurd hm (Nat.not_lt_zero _)
    · have h1i : 1 + i = i + 1 := Nat.add_comm 1 i
      rw [hcc, heq]
      simp only [h1i]
      refine ⟨by simp only [List.length_cons]; omega, ?_, ?_⟩
      · intro x hx
        rw [List.getD_cons_succ]
        rcases List.mem_cons.mp hx with rfl | hx
        · exact le_of_lt hbeat
        · exact hmin x hx
      · intro m hm
        match m, hm with
        | 0, _ =>
          rw [List.getD_cons_succ, List.getD_cons_zero]
          exact hbeat
        | m' + 1, hm =>
          rw [List.getD_cons_succ, List.getD_cons_succ]
          exact hties m' (by omega)

/-- A first argmin of the squared distances is unique. -/
lemma firstArgmin_unique (p : Pixel) (cs : List Centroid) (j1 j2 : ℕ)
    (h1l : j1 < cs.length)
    (h1m : ∀ c ∈ cs, distSq p (cs.getD j1 cdef) ≤ distSq p c)
    (h1t : ∀ m, m < j1 → distSq p (cs.getD j1 cdef) < distSq p (cs.getD m cdef))
    (h2l : j2 < cs.length)
    (h2m : ∀ c ∈ cs, distSq p (cs.getD j2 cdef) ≤ distSq p c)
    (h2t : ∀ m, m < j2 → distSq p (cs.getD j2 cdef) < distSq p (cs.getD m cdef)) :
    j1 = j2 := by
  rcases lt_trichotomy j1 j2 with h | h | h
  · have hmem : cs.getD j2 cdef ∈ cs := by
      rw [List.getD_eq_getElem cs cdef h2l]
      exact List.getElem_mem h2l
    exact absurd (h1m _ hmem) (not_le.mpr (h2t j1 h))
  · exact h
  · have hmem : cs.getD j1 cdef ∈ cs := by
      rw [List.getD_eq_getElem cs cdef h1l]
      exact List.getElem_mem h1l
    exact absurd (h2m _ hmem) (not_le.mpr (h1t j2 h))

/-- Reconstruction's nearest-centroid search and the in-loop assignment agree
on every input, ties included: both return the first index of minimal
distance. -/
lemma closest_eq_assign (p : Pixel) (cs : List Centroid) :
    closest_centroid_index p cs = assign cs p := by
  match cs with
  | [] => rfl
  | c :: rest =>
    have h1 := closest_spec (c :: rest) p (by simp)
    have h2 := assign_spec (c :: rest) p (by simp)
    exact firstArgmin_unique p (c :: rest) _ _ h1.1 h1.2.1 h1.2.2 h2.1 h2.2.1 h2.2.2

/-! ### Aggregation as indexed sums -/

lemma sum_map_one (g : List Pixel) : (g.map (fun _ => (1 : ℕ))).sum = g.length := by
  induction g with
  | nil => rfl
  | cons p ps ih =>
    simp only [List.map_cons, List.sum_cons, ih, List.length_cons]
    omega

/-- The channel fold over a group equals the indexed sum over all samples,
restricted to the indices assigned to that group. -/
lemma groupPixels_map_sum {M : Type} [AddCommMonoid M] (f : Pixel → M) :
    ∀ (as_ : List ℕ) (ps : List Pixel), as_.length = ps.length → ∀ j,
    ((groupPixels as_ ps j).map f).sum
      = ∑ i ∈ Finset.range ps.length,
          if as_.getD i 0 = j then f (ps.getD i pixdef) else 0 := by
  intro as_
  induction as_ with
  | nil =>
    intro ps hlen j
    have : ps = [] := List.length_eq_zero.mp hlen.symm
    subst this
    simp [groupPixels]
  | cons a rest ih =>
    intro ps hlen j
    match ps with
    | [] => simp at hlen
    | p :: ps' =>
      have hlen' : rest.length = ps'.length := by simpa using hlen
      rw [List.length_cons, Finset.sum_range_succ']
      simp only [List.getD_cons_succ, List.getD_cons_zero]
      rw [← ih ps' hlen' j]
      by_cases ha : a = j
      · subst ha
        rw [show groupPixels (a :: rest) (p :: ps') a = p :: groupPixels rest ps' a from by
          simp [groupPixels]]
        rw [List.map_cons, List.sum_cons, if_pos rfl, add_comm]
      · rw [show groupPixels (a :: rest) (p :: ps') j = groupPixels rest ps' j from by
          simp [groupPixels, ha]]
        rw [if_neg ha, add_zero]

/-- The size of a group equals the number of indices assigned to it. -/
lemma groupPixels_length (as_ : List ℕ) (ps : List Pixel)
    (hlen : as_.length = ps.length) (j : ℕ) :
    (groupPixels as_ ps j).length
      = ((Finset.range ps.length).filter (fun i => as_.getD i 0 = j)).card := by
  rw [← sum_map_one (groupPixels as_ ps j),
    groupPixels_map_sum (fun _ => (1 : ℕ)) as_ ps hlen j, Finset.card_filter]

lemma update_centroids_length (k : ℕ) (as_ : List ℕ) (ps : List Pixel) :
    (update_centroids k as_ ps).length = k := by
  simp [update_centroids]

lemma update_centroids_getD (k : ℕ) (as_ : List ℕ) (ps : List Pixel) (j : ℕ)
    (hj : j < k) :
    (update_centroids k as_ ps).getD j cdef
      = centroidOfGroup (groupPixels as_ ps j) := by
  unfold update_centroids
  have hlen : j < ((List.range k).map
      (fun j => centroidOfGroup (groupPixels as_ ps j))).length := by
    simpa using hj
  rw [List.getD_eq_getElem _ _ hlen]
  simp

/-! ### Driver-loop structure -/

lemma kmeansStep_length (pixels : List Pixel) (cs : List Centroid) :
    (kmeansStep pixels cs).length = cs.length := by
  simp [kmeansStep, update_centroids_length]

lemma stepN_succ_in (pixels : List Pixel) (t : ℕ) (cs : List Centroid) :
    stepN pixels (t + 1) cs = stepN pixels t (kmeansStep pixels cs) := rfl

lemma stepN_succ_out (pixels : List Pixel) :
    ∀ (t : ℕ) (cs : List Centroid),
    stepN pixels (t + 1) cs = kmeansStep pixels (stepN pixels t cs) := by
  intro t
  induction t with
  | zero => intro cs; rfl
  | succ t ih =>
    intro cs
    rw [stepN_succ_in, ih (kmeansStep pixels cs), ← stepN_succ_in]

lemma stepN_length (pixels : List Pixel) :
    ∀ (t : ℕ) (cs : List Centroid), (stepN pixels t cs).length = cs.length := by
  intro t
  induction t with
  | zero => intro cs; rfl
  | succ t ih =>
    intro cs
    rw [stepN_succ_in, ih, kmeansStep_length]

lemma runCount_succ (pixels : List Pixel) (n : ℕ) (cs : List Centroid) :
    runCount pixels (n + 1) cs
      = if allClose (kmeansStep pixels cs) cs then 1
        else runCount pixels n (kmeansStep pixels cs) + 1 := rfl

lemma runAux_succ (pixels : List Pixel) (n : ℕ) (cs : List Centroid) :
    runAux pixels (n + 1) cs
      = if allClose (kmeansStep pixels cs) cs then kmeansStep pixels cs
        else runAux pixels n (kmeansStep pixels cs) := rfl

lemma runCount_le (pixels : List Pixel) :
    ∀ (n : ℕ) (cs : List Centroid), runCount pixels n cs ≤ n := by
  intro n
  induction n with
  | zero => intro cs; exact le_refl 0
  | succ n ih =>
    intro cs
    rw [runCount_succ]
    by_cases h : allClose (kmeansStep pixels cs) cs
    · rw [if_pos h]; omega
    · rw [if_neg h]
      have := ih (kmeansStep pixels cs)
      omega

lemma runCount_pos (pixels : List Pixel) (n : ℕ) (cs : List Centroid) (hn : 0 < n) :
    1 ≤ runCount pixels n cs := by
  match n, hn with
  | n + 1, _ =>
    rw [runCount_succ]
    by_cases h : allClose (kmeansStep pixels cs) cs
    · rw [if_pos h]
    · rw [if_neg h]; omega

lemma runAux_eq_stepN (pixels : List Pixel) :
    ∀ (n : ℕ) (cs : List Centroid),
    runAux pixels n cs = stepN pixels (runCount pixels n cs) cs := by
  intro n
  induction n with
  | zero => intro cs; rfl
  | succ n ih =>
    intro cs
    rw [runAux_succ, runCount_succ]
    by_cases h : allClose (kmeansStep pixels cs) cs
    · rw [if_pos h, if_pos h]
      rfl
    · rw [if_neg h, if_neg h, ih (kmeansStep pixels cs), ← stepN_succ_in]

lemma runCount_first_conv (pixels : List Pixel) :
    ∀ (n : ℕ) (cs : List Centroid) (t : ℕ), t + 1 < runCount pixels n cs →
    allClose (stepN pixels (t + 1) cs) (stepN pixels t cs) = false := by
  intro n
  induction n with
  | zero =>
    intro cs t ht
    simp [runCount] at ht
  | succ n ih =>
    intro cs t ht
    rw [runCount_succ] at ht
    by_cases h : allClose (kmeansStep pixels cs) cs
    · rw [if_pos h] at ht
      omega
    · rw [if_neg h] at ht
      match t with
      | 0 =>
        rw [stepN_succ_in]
        exact Bool.not_eq_true _ ▸ (Bool.eq_false_iff.mpr h)
      | s + 1 =>
        rw [stepN_succ_in pixels (s + 1), stepN_succ_in pixels s]
        exact ih (kmeansStep pixels cs) s (by omega)

lemma runCount_early_stop (pixels : List Pixel) :
    ∀ (n : ℕ) (cs : List Centroid), runCount pixels n cs < n →
    0 < runCount pixels n cs ∧
    allClose (stepN pixels (runCount pixels n cs) cs)
      (stepN pixels (runCount pixels n cs - 1) cs) = true := by
  intro n
  induction n with
  | zero =>
    intro cs h
    exact absurd h (by omega)
  | succ n ih =>
    intro cs h
    rw [runCount_succ] at h ⊢
    by_cases hc : allClose (kmeansStep pixels cs) cs
    · rw [if_pos hc]
      refine ⟨by omega, ?_⟩
      rw [show (1 : ℕ) - 1 = 0 from rfl, stepN_succ_in]
      exact hc
    · rw [if_neg hc] at h ⊢
      have h' : runCount pixels n (kmeansStep pixels cs) < n := by omega
      rcases ih (kmeansStep pixels cs) h' with ⟨hpos, hclose⟩
      refine ⟨by omega, ?_⟩
      have hT : runCount pixels n (kmeansStep pixels cs) + 1 - 1
          = (runCount pixels n (kmeansStep pixels cs) - 1) + 1 := by omega
      rw [hT, stepN_succ_in, stepN_succ_in]
      exact hclose

/-! ### The K = 1 special case -/

lemma assign_single (c : Centroid) (p : Pixel) : assign [c] p = 0 := rfl

lemma groupPixels_const_zero (pixels : List Pixel) :
    groupPixels (pixels.map (fun _ => 0)) pixels 0 = pixels := by
  induction pixels with
  | nil => rfl
  | cons p ps ih =>
    simp only [List.map_cons]
    unfold groupPixels
    rw [if_pos rfl, ih]

lemma centroidOfGroup_of_ne_nil (g : List Pixel) (hg : g ≠ []) :
    centroidOfGroup g = meanCentroid g := by
  unfold centroidOfGroup meanCentroid
  rw [if_pos (List.length_pos.mpr hg)]

lemma kmeansStep_single (pixels : List Pixel) (hne : pixels ≠ []) (c : Centroid) :
    kmeansStep pixels [c] = [meanCentroid pixels] := by
  unfold kmeansStep
  have hstep : assignStep [c] pixels = pixels.map (fun _ => 0) := by
    unfold assignStep
    exact List.map_congr_left (fun p _ => assign_single c p)
  rw [hstep]
  show (List.range 1).map _ = _
  rw [show List.range 1 = [0] from rfl, List.map_cons, List.map_nil]
  rw [groupPixels_const_zero, centroidOfGroup_of_ne_nil pixels hne]

lemma is_close_self (c : Centroid) : Centroid.is_close c c = true := by
  unfold Centroid.is_close
  norm_num

lemma allClose_singleton (a b : Centroid) :
    allClose [a] [b] = Centroid.is_close a b := by
  simp [allClose]

/-- With a single centroid the loop stops after one iteration when the initial
centroid is already within the closeness threshold of the mean, and otherwise
after exactly two; from the first iteration on the centroid is the exact mean
of all samples. -/
lemma single_centroid_run (pixels : List Pixel) (hne : pixels ≠ [])
    (c0 : Centroid) (n : ℕ) :
    runCount pixels (n + 2) [c0]
      = (if Centroid.is_close (meanCentroid pixels) c0 then 1 else 2) ∧
    runAux pixels (n + 2) [c0] = [meanCentroid pixels] := by
  have h1 : kmeansStep pixels [c0] = [meanCentroid pixels] :=
    kmeansStep_single pixels hne c0
  have h2 : kmeansStep pixels [meanCentroid pixels] = [meanCentroid pixels] :=
    kmeansStep_single pixels hne (meanCentroid pixels)
  have hself : allClose [meanCentroid pixels] [meanCentroid pixels] = true := by
    rw [allClose_singleton]
    exact is_close_self _
  rw [runCount_succ, runAux_succ, h1, allClose_singleton]
  by_cases hc : Centroid.is_close (meanCentroid pixels) c0
  · rw [if_pos hc, if_pos hc, if_pos hc]
    exact ⟨rfl, rfl⟩
  · rw [if_neg hc, if_neg hc, if_neg hc]
    constructor
    · rw [runCount_succ, h2, hself, if_pos rfl]
    · rw [runAux_succ, h2, hself, if_pos rfl]

/-! ### Remaining helper lemmas -/

lemma distSq_eq_zero_iff (p : Pixel) (c : Centroid) :
    distSq p c = 0 ↔ ((p.r : ℚ) = c.r ∧ (p.g : ℚ) = c.g ∧ (p.b : ℚ) = c.b) := by
  unfold distSq
  constructor
  · intro h
    have e1 : ((p.r : ℚ) - c.r) ^ 2 = 0 := le_antisymm
      (by nlinarith [sq_nonneg ((p.g : ℚ) - c.g), sq_nonneg ((p.b : ℚ) - c.b)])
      (sq_nonneg _)
    have e2 : ((p.g : ℚ) - c.g) ^ 2 = 0 := le_antisymm
      (by nlinarith [sq_nonneg ((p.r : ℚ) - c.r), sq_nonneg ((p.b : ℚ) - c.b)])
      (sq_nonneg _)
    have e3 : ((p.b : ℚ) - c.b) ^ 2 = 0 := le_antisymm
      (by nlinarith [sq_nonneg ((p.r : ℚ) - c.r), sq_nonneg ((p.g : ℚ) - c.g)])
      (sq_nonneg _)
    refine ⟨?_, ?_, ?_⟩
    · have := pow_eq_zero_iff (n := 2) (by omega) |>.mp e1
      linarith [this]
    · have := pow_eq_zero_iff (n := 2) (by omega) |>.mp e2
      linarith [this]
    · have := pow_eq_zero_iff (n := 2) (by omega) |>.mp e3
      linarith [this]
  · rintro ⟨h1, h2, h3⟩
    rw [h1, h2, h3]
    ring

lemma assignStep_getD (cs : List Centroid) (pixels : List Pixel) (i : ℕ)
    (hi : i < pixels.length) :
    (assignStep cs pixels).getD i 0 = assign cs (pixels.getD i pixdef) := by
  unfold assignStep
  rw [List.getD_eq_getElem _ _ (by simpa using hi), List.getElem_map,
    List.getD_eq_getElem _ _ hi]

/-! ### Claims -/

/-- C7: `distance` is the Euclidean distance of 3-dimensional color space (the
square root of the summed squared channel differences), it is nonnegative for
all inputs, and it vanishes exactly when the sample's channel values equal the
centroid's. -/
theorem distance_is_euclidean (p : Pixel) (c : Centroid) :
    Pixel.distance p c = dist (pixelToE p) (centroidToE c) ∧
    0 ≤ Pixel.distance p c ∧
    (Pixel.distance p c = 0 ↔
      ((p.r : ℚ) = c.r ∧ (p.g : ℚ) = c.g ∧ (p.b : ℚ) = c.b)) := by
  refine ⟨?_, Real.sqrt_nonneg _, ?_⟩
  · unfold Pixel.distance pixelToE centroidToE
    rw [EuclideanSpace.dist_eq]
    congr 1
    rw [Fin.sum_univ_three]
    simp [Real.dist_eq, sq_abs]
  · rw [distance_eq_sqrt_distSq, ← distSq_eq_zero_iff p c]
    constructor
    · intro h
      have hle : ((distSq p c : ℚ) : ℝ) ≤ 0 := Real.sqrt_eq_zero'.mp h
      have hge : (0 : ℝ) ≤ ((distSq p c : ℚ) : ℝ) := by
        exact_mod_cast distSq_nonneg p c
      exact_mod_cast le_antisymm hle hge
    · intro h
      rw [h]
      norm_num

/-- C1: for a non-empty centroid list, entry `i` of the assignment step is a
function of sample `i` and the frozen centroid snapshot alone, and it is the
index of a centroid at minimum Euclidean distance from that sample, the lowest
such index on an exact tie (every earlier centroid is strictly farther). -/
theorem assignment_step_nearest (cs : List Centroid) (pixels : List Pixel)
    (hcs : cs ≠ []) (i : ℕ) (hi : i < pixels.length) :
    (assignStep cs pixels).getD i 0 = assign cs (pixels.getD i pixdef) ∧
    assign cs (pixels.getD i pixdef) < cs.length ∧
    (∀ c ∈ cs,
      Pixel.distance (pixels.getD i pixdef)
          (cs.getD (assign cs (pixels.getD i pixdef)) cdef)
        ≤ Pixel.distance (pixels.getD i pixdef) c) ∧
    (∀ m, m < assign cs (pixels.getD i pixdef) →
      Pixel.distance (pixels.getD i pixdef)
          (cs.getD (assign cs (pixels.getD i pixdef)) cdef)
        < Pixel.distance (pixels.getD i pixdef) (cs.getD m cdef)) := by
  rcases assign_spec cs (pixels.getD i pixdef) hcs with ⟨hlt, hmin, hties⟩
  refine ⟨assignStep_getD cs pixels i hi, hlt, ?_, ?_⟩
  · intro c hc
    rw [distance_le_distance_iff]
    exact hmin c hc
  · intro m hm
    rw [distance_lt_distance_iff]
    exact hties m hm

/-- Witness for C1 at a concrete input: two centroids, one sample. -/
theorem assignment_step_nearest_witness :
    (([⟨0, 0, 0⟩, ⟨4, 0, 0⟩] : List Centroid) ≠ [] ∧
      (0 : ℕ) < ([⟨1, 1, 1⟩] : List Pixel).length) ∧
    ((assignStep [⟨0, 0, 0⟩, ⟨4, 0, 0⟩] [⟨1, 1, 1⟩]).getD 0 0
        = assign [⟨0, 0, 0⟩, ⟨4, 0, 0⟩] (([⟨1, 1, 1⟩] : List Pixel).getD 0 pixdef) ∧
      assign [⟨0, 0, 0⟩, ⟨4, 0, 0⟩] (([⟨1, 1, 1⟩] : List Pixel).getD 0 pixdef)
        < ([⟨0, 0, 0⟩, ⟨4, 0, 0⟩] : List Centroid).length ∧
      (∀ c ∈ ([⟨0, 0, 0⟩, ⟨4, 0, 0⟩] : List Centroid),
        Pixel.distance (([⟨1, 1, 1⟩] : List Pixel).getD 0 pixdef)
            (([⟨0, 0, 0⟩, ⟨4, 0, 0⟩] : List Centroid).getD
              (assign [⟨0, 0, 0⟩, ⟨4, 0, 0⟩]
                (([⟨1, 1, 1⟩] : List Pixel).getD 0 pixdef)) cdef)
          ≤ Pixel.distance (([⟨1, 1, 1⟩] : List Pixel).getD 0 pixdef) c) ∧
      (∀ m, m < assign [⟨0, 0, 0⟩, ⟨4, 0, 0⟩]
          (([⟨1, 1, 1⟩] : List Pixel).getD 0 pixdef) →
        Pixel.distance (([⟨1, 1, 1⟩] : List Pixel).getD 0 pixdef)
            (([⟨0, 0, 0⟩, ⟨4, 0, 0⟩] : List Centroid).getD
              (assign [⟨0, 0, 0⟩, ⟨4, 0, 0⟩]
                (([⟨1, 1, 1⟩] : List Pixel).getD 0 pixdef)) cdef)
          < Pixel.distance (([⟨1, 1, 1⟩] : List Pixel).getD 0 pixdef)
              (([⟨0, 0, 0⟩, ⟨4, 0, 0⟩] : List Centroid).getD m cdef))) :=
  ⟨⟨by simp, by simp⟩,
    assignment_step_nearest [⟨0, 0, 0⟩, ⟨4, 0, 0⟩] [⟨1, 1, 1⟩] (by simp) 0 (by simp)⟩

/-- C6: with at least one centroid, every entry of the assignment vector is in
`[0, K)` at every iteration of the loop. -/
theorem assignment_indices_in_range (K : ℕ) (hK : 1 ≤ K) (cs : List Centroid)
    (hlen : cs.length = K) (pixels : List Pixel) (t : ℕ) :
    ∀ a ∈ assignStep (stepN pixels t cs) pixels, a < K := by
  intro a ha
  unfold assignStep at ha
  rcases List.mem_map.mp ha with ⟨p, hp, rfl⟩
  have hlen' : (stepN pixels t cs).length = K := by rw [stepN_length, hlen]
  have hne : stepN pixels t cs ≠ [] := by
    intro h
    rw [h] at hlen'
    simp at hlen'
    omega
  have hb := (assign_spec _ p hne).1
  rw [hlen'] at hb
  exact hb

/-- Witness for C6 at a concrete input. -/
theorem assignment_indices_in_range_witness :
    (1 ≤ 1 ∧ ([cdef] : List Centroid).length = 1) ∧
    ∀ a ∈ assignStep (stepN [pixdef] 0 [cdef]) [pixdef], a < 1 :=
  ⟨⟨le_refl 1, by simp⟩,
    assignment_indices_in_range 1 (le_refl 1) [cdef] (by simp) [pixdef] 0⟩

/-- C2: given an assignment vector of matching length with all indices in
`[0, K)`, aggregation yields exactly `K` centroids; centroid `j` is the
per-channel arithmetic mean (promoted to the rationals) of the samples whose
assignment index is `j`, and a cluster with zero assigned samples yields
exactly the centroid `(0, 0, 0)` instead of an error. -/
theorem update_centroids_is_mean (K : ℕ) (assignments : List ℕ)
    (pixels : List Pixel) (hlen : assignments.length = pixels.length)
    (_hK : ∀ a ∈ assignments, a < K) :
    (update_centroids K assignments pixels).length = K ∧
    ∀ j, j < K →
      (0 < ((Finset.range pixels.length).filter
          (fun i => assignments.getD i 0 = j)).card →
        (update_centroids K assignments pixels).getD j cdef =
          ⟨(∑ i ∈ Finset.range pixels.length,
              if assignments.getD i 0 = j
              then ((pixels.getD i pixdef).r : ℚ) else 0)
            / (((Finset.range pixels.length).filter
                (fun i => assignments.getD i 0 = j)).card : ℚ),
           (∑ i ∈ Finset.range pixels.length,
              if assignments.getD i 0 = j
              then ((pixels.getD i pixdef).g : ℚ) else 0)
            / (((Finset.range pixels.length).filter
                (fun i => assignments.getD i 0 = j)).card : ℚ),
           (∑ i ∈ Finset.range pixels.length,
              if assignments.getD i 0 = j
              then ((pixels.getD i pixdef).b : ℚ) else 0)
            / (((Finset.range pixels.length).filter
                (fun i => assignments.getD i 0 = j)).card : ℚ)⟩) ∧
      (((Finset.range pixels.length).filter
          (fun i => assignments.getD i 0 = j)).card = 0 →
        (update_centroids K assignments pixels).getD j cdef = ⟨0, 0, 0⟩) := by
  refine ⟨update_centroids_length K assignments pixels, ?_⟩
  intro j hj
  rw [update_centroids_getD K assignments pixels j hj]
  have hglen := groupPixels_length assignments pixels hlen j
  constructor
  · intro hpos
    have hgpos : 0 < (groupPixels assignments pixels j).length := by
      rw [hglen]; exact hpos
    unfold centroidOfGroup
    rw [if_pos hgpos]
    have hr := groupPixels_map_sum (fun p => (p.r : ℚ)) assignments pixels hlen j
    have hg := groupPixels_map_sum (fun p => (p.g : ℚ)) assignments pixels hlen j
    have hb := groupPixels_map_sum (fun p => (p.b : ℚ)) assignments pixels hlen j
    rw [hr, hg, hb, hglen]
  · intro hzero
    have hgz : (groupPixels assignments pixels j).length = 0 := by
      rw [hglen]; exact hzero
    unfold centroidOfGroup
    rw [if_neg (by omega)]

/-- Witness for C2 at a concrete input: two clusters, second one empty. -/
theorem update_centroids_is_mean_witness :
    (([0, 0] : List ℕ).length = ([⟨1, 2, 3⟩, ⟨3, 4, 5⟩] : List Pixel).length ∧
      ∀ a ∈ ([0, 0] : List ℕ), a < 2) ∧
    ((update_centroids 2 [0, 0] [⟨1, 2, 3⟩, ⟨3, 4, 5⟩]).length = 2 ∧
      ∀ j, j < 2 →
        (0 < ((Finset.range ([⟨1, 2, 3⟩, ⟨3, 4, 5⟩] : List Pixel).length).filter
            (fun i => ([0, 0] : List ℕ).getD i 0 = j)).card →
          (update_centroids 2 [0, 0] [⟨1, 2, 3⟩, ⟨3, 4, 5⟩]).getD j cdef =
            ⟨(∑ i ∈ Finset.range ([⟨1, 2, 3⟩, ⟨3, 4, 5⟩] : List Pixel).length,
                if ([0, 0] : List ℕ).getD i 0 = j
                then ((([⟨1, 2, 3⟩, ⟨3, 4, 5⟩] : List Pixel).getD i pixdef).r : ℚ)
                else 0)
              / ((((Finset.range ([⟨1, 2, 3⟩, ⟨3, 4, 5⟩] : List Pixel).length).filter
                  (fun i => ([0, 0] : List ℕ).getD i 0 = j)).card : ℚ)),
             (∑ i ∈ Finset.range ([⟨1, 2, 3⟩, ⟨3, 4, 5⟩] : List Pixel).length,
                if ([0, 0] : List ℕ).getD i 0 = j
                then ((([⟨1, 2, 3⟩, ⟨3, 4, 5⟩] : List Pixel).getD i pixdef).g : ℚ)
                else 0)
              / ((((Finset.range ([⟨1, 2, 3⟩, ⟨3, 4, 5⟩] : List Pixel).length).filter
                  (fun i => ([0, 0] : List ℕ).getD i 0 = j)).card : ℚ)),
             (∑ i ∈ Finset.range ([⟨1, 2, 3⟩, ⟨3, 4, 5⟩] : List Pixel).length,
                if ([0, 0] : List ℕ).getD i 0 = j
                then ((([⟨1, 2, 3⟩, ⟨3, 4, 5⟩] : List Pixel).getD i pixdef).b : ℚ)
                else 0)
              / ((((Finset.range ([⟨1, 2, 3⟩, ⟨3, 4, 5⟩] : List Pixel).length).filter
                  (fun i => ([0, 0] : List ℕ).getD i 0 = j)).card : ℚ))⟩) ∧
        (((Finset.range ([⟨1, 2, 3⟩, ⟨3, 4, 5⟩] : List Pixel).length).filter
            (fun i => ([0, 0] : List ℕ).getD i 0 = j)).card = 0 →
          (update_centroids 2 [0, 0] [⟨1, 2, 3⟩, ⟨3, 4, 5⟩]).getD j cdef
            = ⟨0, 0, 0⟩)) :=
  ⟨⟨by simp, by simp⟩,
    update_centroids_is_mean 2 [0, 0] [⟨1, 2, 3⟩, ⟨3, 4, 5⟩] (by simp) (by simp)⟩

/-- C3: the driver performs at most 100 assignment-plus-aggregation
iterations; it stops early exactly at the first iteration whose newly
aggregated centroids are all `is_close` to the previous ones, and otherwise
the cap simply ends the loop with the last computed centroids (a normal
outcome, not an error: `run` is total). -/
theorem run_loop_capped (pixels : List Pixel) (cs : List Centroid) :
    runCount pixels 100 cs ≤ 100 ∧
    KMeans.run pixels cs = stepN pixels (runCount pixels 100 cs) cs ∧
    (∀ t, t + 1 < runCount pixels 100 cs →
      allClose (stepN pixels (t + 1) cs) (stepN pixels t cs) = false) ∧
    (runCount pixels 100 cs < 100 →
      0 < runCount pixels 100 cs ∧
      allClose (stepN pixels (runCount pixels 100 cs) cs)
        (stepN pixels (runCount pixels 100 cs - 1) cs) = true) :=
  ⟨runCount_le pixels 100 cs, runAux_eq_stepN pixels 100 cs,
    fun t ht => runCount_first_conv pixels 100 cs t ht,
    fun h => runCount_early_stop pixels 100 cs h⟩

/-- C10: the convergence check happens only after the new centroids have
replaced the current set, so on every exit of the loop — converged or
cap-exhausted — the final centroid set is the output of the last aggregation
step, never the previous iteration's centroids. -/
theorem final_centroids_from_last_aggregation (pixels : List Pixel)
    (cs : List Centroid) :
    1 ≤ runCount pixels 100 cs ∧
    KMeans.run pixels cs
      = kmeansStep pixels (stepN pixels (runCount pixels 100 cs - 1) cs) := by
  have hpos := runCount_pos pixels 100 cs (by omega)
  refine ⟨hpos, ?_⟩
  rw [show KMeans.run pixels cs = runAux pixels 100 cs from rfl,
    runAux_eq_stepN]
  have hT : runCount pixels 100 cs = (runCount pixels 100 cs - 1) + 1 := by
    omega
  nth_rewrite 1 [hT]
  rw [stepN_succ_out]

/-- C4 (amended): for K = 1 and any non-empty sample list, after one iteration
the single centroid equals the exact per-channel mean (sum divided by count)
of all samples and the loop's final centroid is that mean; the loop stops
after at most two iterations — after exactly one when the initial centroid is
already within the closeness threshold of the mean, and after exactly two
otherwise. -/
theorem single_cluster_mean (pixels : List Pixel) (hne : pixels ≠ [])
    (c0 : Centroid) :
    stepN pixels 1 [c0] = [meanCentroid pixels] ∧
    KMeans.run pixels [c0] = [meanCentroid pixels] ∧
    runCount pixels 100 [c0] ≤ 2 ∧
    (Centroid.is_close (meanCentroid pixels) c0 = true →
      runCount pixels 100 [c0] = 1) ∧
    (Centroid.is_close (meanCentroid pixels) c0 = false →
      runCount pixels 100 [c0] = 2) := by
  have h := single_centroid_run pixels hne c0 98
  rw [show (98 : ℕ) + 2 = 100 from rfl] at h
  rcases h with ⟨hcount, hrun⟩
  refine ⟨kmeansStep_single pixels hne c0, hrun, ?_, ?_, ?_⟩
  · rw [hcount]
    split_ifs <;> omega
  · intro hc
    rw [hcount, if_pos hc]
  · intro hc
    rw [hcount, if_neg (by simp [hc])]

/-- Witness for C4 at a concrete input. -/
theorem single_cluster_mean_witness :
    (([⟨2, 0, 0⟩, ⟨4, 0, 0⟩] : List Pixel) ≠ []) ∧
    (stepN [⟨2, 0, 0⟩, ⟨4, 0, 0⟩] 1 [⟨0, 0, 0⟩]
        = [meanCentroid [⟨2, 0, 0⟩, ⟨4, 0, 0⟩]] ∧
      KMeans.run [⟨2, 0, 0⟩, ⟨4, 0, 0⟩] [⟨0, 0, 0⟩]
        = [meanCentroid [⟨2, 0, 0⟩, ⟨4, 0, 0⟩]] ∧
      runCount [⟨2, 0, 0⟩, ⟨4, 0, 0⟩] 100 [⟨0, 0, 0⟩] ≤ 2 ∧
      (Centroid.is_close (meanCentroid [⟨2, 0, 0⟩, ⟨4, 0, 0⟩]) ⟨0, 0, 0⟩ = true →
        runCount [⟨2, 0, 0⟩, ⟨4, 0, 0⟩] 100 [⟨0, 0, 0⟩] = 1) ∧
      (Centroid.is_close (meanCentroid [⟨2, 0, 0⟩, ⟨4, 0, 0⟩]) ⟨0, 0, 0⟩ = false →
        runCount [⟨2, 0, 0⟩, ⟨4, 0, 0⟩] 100 [⟨0, 0, 0⟩] = 2)) :=
  ⟨by simp, single_cluster_mean [⟨2, 0, 0⟩, ⟨4, 0, 0⟩] (by simp) ⟨0, 0, 0⟩⟩

/-- C4 counterexample: with one sample `(2,0,0)` and initial centroid
`(0,0,0)` (K = 1), the loop executes two iterations before stopping, not one:
iteration 1 moves the centroid to the mean, and only iteration 2 finds the
recomputed mean `is_close` to it. -/
theorem single_cluster_two_iterations :
    meanCentroid [⟨2, 0, 0⟩] = ⟨2, 0, 0⟩ ∧
    runCount [⟨2, 0, 0⟩] 100 [⟨0, 0, 0⟩] = 2 := by
  have hmean : meanCentroid [⟨2, 0, 0⟩] = ⟨2, 0, 0⟩ := by
    unfold meanCentroid
    norm_num
  refine ⟨hmean, ?_⟩
  have h := single_centroid_run [⟨2, 0, 0⟩] (by simp) ⟨0, 0, 0⟩ 98
  rw [show (98 : ℕ) + 2 = 100 from rfl] at h
  rw [h.1, if_neg ?_]
  rw [hmean]
  intro hc
  have : ¬ ((2 : ℚ) < 1e-5) := by norm_num
  unfold Centroid.is_close at hc
  norm_num at hc

/-- C9 (amended): on an exact distance tie `closest_centroid_index` returns
the lowest index — Rust's `min_by` keeps the earlier of two equal elements —
which is the same tie-breaking as the in-loop assignment step: the two
searches agree on every sample and every centroid list, so the reconstructed
color always comes from the centroid the last in-loop assignment chose
whenever the centroids are unchanged. -/
theorem closest_index_eq_assign (p : Pixel) (cs : List Centroid) :
    closest_centroid_index p cs = assign cs p :=
  closest_eq_assign p cs

/-- C9 counterexample: the sample `(1,0,0)` is exactly equidistant from the
centroids `(0,0,0)` and `(2,0,0)`, yet `closest_centroid_index` returns
index 0, the lowest of the equidistant pair, not the highest index 1 — and it
matches the in-loop assignment. -/
theorem closest_tie_returns_lowest :
    Pixel.distance ⟨1, 0, 0⟩ ⟨0, 0, 0⟩ = Pixel.distance ⟨1, 0, 0⟩ ⟨2, 0, 0⟩ ∧
    closest_centroid_index ⟨1, 0, 0⟩ [⟨0, 0, 0⟩, ⟨2, 0, 0⟩] = 0 ∧
    closest_centroid_index ⟨1, 0, 0⟩ [⟨0, 0, 0⟩, ⟨2, 0, 0⟩] ≠ 1 ∧
    assign [⟨0, 0, 0⟩, ⟨2, 0, 0⟩] ⟨1, 0, 0⟩ = 0 := by
  have hd : distSq ⟨1, 0, 0⟩ ⟨0, 0, 0⟩ = distSq ⟨1, 0, 0⟩ ⟨2, 0, 0⟩ := by
    norm_num [distSq]
  refine ⟨?_, ?_, ?_, ?_⟩
  · rw [distance_eq_sqrt_distSq, distance_eq_sqrt_distSq, hd]
  · norm_num [closest_centroid_index, minByGo, distSq]
  · norm_num [closest_centroid_index, minByGo, distSq]
  · norm_num [assign, assignGo, distSq]

/-- C5: with a non-empty final centroid set, reconstruction succeeds and each
output color is a final centroid minimizing the distance to the sample, with
every channel quantized to an 8-bit integer by truncation; the output is
computed from the final centroids and the sample alone, with no assignment
vector involved. -/
theorem reconstruction_nearest (cs : List Centroid) (pixels : List Pixel)
    (hcs : cs ≠ []) :
    ∃ out, reconstruct_image cs pixels = some out ∧
      out.length = pixels.length ∧
      ∀ i, i < pixels.length →
        ∃ c, c ∈ cs ∧ out.getD i pixdef = quantizePixel c ∧
          ∀ c' ∈ cs, Pixel.distance (pixels.getD i pixdef) c
            ≤ Pixel.distance (pixels.getD i pixdef) c' := by
  induction pixels with
  | nil => exact ⟨[], rfl, rfl, fun i hi => absurd hi (by simp)⟩
  | cons p ps ih =>
    rcases ih with ⟨out, hout, hlen, hspec⟩
    rcases closest_spec cs p hcs with ⟨hidx, hmin, _⟩
    have hsome : cs[closest_centroid_index p cs]?
        = some (cs.getD (closest_centroid_index p cs) cdef) := by
      rw [List.getElem?_eq_getElem hidx, List.getD_eq_getElem cs cdef hidx]
    refine ⟨quantizePixel (cs.getD (closest_centroid_index p cs) cdef) :: out,
      ?_, ?_, ?_⟩
    · show reconstruct_image cs (p :: ps) = _
      unfold reconstruct_image
      rw [hsome, hout]
    · simp [hlen]
    · intro i hi
      match i with
      | 0 =>
        refine ⟨cs.getD (closest_centroid_index p cs) cdef, ?_, by simp, ?_⟩
        · rw [List.getD_eq_getElem cs cdef hidx]
          exact List.getElem_mem hidx
        · intro c' hc'
          rw [List.getD_cons_zero, distance_le_distance_iff]
          exact hmin c' hc'
      | i + 1 =>
        have hi' : i < ps.length := by
          simp only [List.length_cons] at hi
          omega
        rcases hspec i hi' with ⟨c, hc, hq, hd⟩
        refine ⟨c, hc, ?_, ?_⟩
        · rw [List.getD_cons_succ]
          exact hq
        · intro c' hc'
          rw [List.getD_cons_succ]
          exact hd c' hc'

/-- Witness for C5 at a concrete input. -/
theorem reconstruction_nearest_witness :
    (([⟨1, 2, 3⟩] : List Centroid) ≠ []) ∧
    (∃ out, reconstruct_image [⟨1, 2, 3⟩] [⟨0, 0, 0⟩] = some out ∧
      out.length = ([⟨0, 0, 0⟩] : List Pixel).length ∧
      ∀ i, i < ([⟨0, 0, 0⟩] : List Pixel).length →
        ∃ c, c ∈ ([⟨1, 2, 3⟩] : List Centroid) ∧
          out.getD i pixdef = quantizePixel c ∧
          ∀ c' ∈ ([⟨1, 2, 3⟩] : List Centroid),
            Pixel.distance (([⟨0, 0, 0⟩] : List Pixel).getD i pixdef) c
              ≤ Pixel.distance (([⟨0, 0, 0⟩] : List Pixel).getD i pixdef) c') :=
  ⟨by simp, reconstruction_nearest [⟨1, 2, 3⟩] [⟨0, 0, 0⟩] (by simp)⟩

/-! ### Panic-aware loop steps -/

lemma runChecked_cont (pixels : List Pixel) (n : ℕ) (cs cs' : List Centroid)
    (hupd : updateChecked cs.length (assignStep cs pixels) pixels = some cs')
    (hcl : allClose cs' cs = false) :
    runChecked pixels (n + 1) cs = runChecked pixels n cs' := by
  simp [runChecked, hupd, hcl]

lemma runChecked_stop (pixels : List Pixel) (n : ℕ) (cs cs' : List Centroid)
    (hupd : updateChecked cs.length (assignStep cs pixels) pixels = some cs')
    (hcl : allClose cs' cs = true) :
    runChecked pixels (n + 1) cs = some cs' := by
  simp [runChecked, hupd, hcl]

/-- C8 (amended): there is no fail-fast validation anywhere: initialization
succeeds on any non-empty sample list for every K, including K = 0 and K
greater than the sample count. With K = 0 and at least one sample the first
aggregation step indexes `pixel_groups` out of bounds (a panic, modelled by
`none`), and with zero samples initialization itself panics on the empty
random range — but K greater than the sample count alone does not panic. -/
theorem no_fail_fast_guard (pixels : List Pixel) (pick : ℕ → ℕ)
    (hne : pixels ≠ []) :
    (∀ k, ∃ cs, kmeansNew k pixels pick = some cs ∧ cs.length = k) ∧
    pipeline 0 pixels pick = none ∧
    (∀ k, kmeansNew k [] pick = none) := by
  have hlen0 : ¬ pixels.length = 0 := by
    simpa using hne
  refine ⟨?_, ?_, ?_⟩
  · intro k
    refine ⟨(List.range k).map
        (fun t => pixelToCentroid (pixels.getD (pick t % pixels.length) pixdef)),
      ?_, by simp⟩
    unfold kmeansNew
    rw [if_neg hlen0]
  · have h0 : kmeansNew 0 pixels pick = some [] := by
      unfold kmeansNew
      rw [if_neg hlen0]
      simp
    obtain ⟨p, ps, rfl⟩ : ∃ p ps, pixels = p :: ps := by
      match pixels, hne with
      | p :: ps, _ => exact ⟨p, ps, rfl⟩
    have hupd : updateChecked (List.length ([] : List Centroid))
        (assignStep [] (p :: ps)) (p :: ps) = none := by
      unfold updateChecked
      rw [if_neg]
      intro hall
      have h0mem : (0 : ℕ) ∈ assignStep [] (p :: ps) := by
        unfold assignStep
        exact List.mem_map.mpr ⟨p, by simp, rfl⟩
      have := List.all_eq_true.mp hall 0 h0mem
      simp at this
    have hrc : runChecked (p :: ps) 100 [] = none := by
      rw [show (100 : ℕ) = 99 + 1 from rfl]
      simp only [runChecked, hupd]
    simp only [pipeline, h0, hrc]
  · intro k
    simp [kmeansNew]

/-- Witness for C8 at a concrete input. -/
theorem no_fail_fast_guard_witness :
    (([⟨1, 1, 1⟩] : List Pixel) ≠ []) ∧
    ((∀ k, ∃ cs, kmeansNew k [⟨1, 1, 1⟩] (fun _ => 0) = some cs ∧
        cs.length = k) ∧
      pipeline 0 [⟨1, 1, 1⟩] (fun _ => 0) = none ∧
      (∀ k, kmeansNew k [] (fun _ => 0) = none)) :=
  ⟨by simp, no_fail_fast_guard [⟨1, 1, 1⟩] (fun _ => 0) (by simp)⟩

/-- C8 counterexample: with K = 3 greater than the sample count N = 1, the
whole program — initialization, 100-capped loop, reconstruction — runs to
completion and produces an output: no panic and no out-of-bounds indexing
occurs in the K > N configuration. -/
theorem k_gt_n_no_panic :
    ([⟨10, 20, 30⟩] : List Pixel).length < 3 ∧
    pipeline 3 [⟨10, 20, 30⟩] (fun _ => 0)
      = some [⟨10, 20, 30⟩] := by
  have hnew : kmeansNew 3 [⟨10, 20, 30⟩] (fun _ => 0)
      = some [⟨10, 20, 30⟩, ⟨10, 20, 30⟩, ⟨10, 20, 30⟩] := by
    norm_num [kmeansNew, pixelToCentroid, List.range_succ]
  have hupd1 : updateChecked
      (List.length ([⟨10, 20, 30⟩, ⟨10, 20, 30⟩, ⟨10, 20, 30⟩] : List Centroid))
      (assignStep [⟨10, 20, 30⟩, ⟨10, 20, 30⟩, ⟨10, 20, 30⟩] [⟨10, 20, 30⟩])
      [⟨10, 20, 30⟩]
      = some [⟨10, 20, 30⟩, ⟨0, 0, 0⟩, ⟨0, 0, 0⟩] := by
    norm_num [updateChecked, assignStep, assign, assignGo, distSq,
      update_centroids, groupPixels, centroidOfGroup, List.range_succ]
  have hcl1 : allClose [⟨10, 20, 30⟩, ⟨0, 0, 0⟩, ⟨0, 0, 0⟩]
      [⟨10, 20, 30⟩, ⟨10, 20, 30⟩, ⟨10, 20, 30⟩] = false := by
    norm_num [allClose, Centroid.is_close]
  have hupd2 : updateChecked
      (List.length ([⟨10, 20, 30⟩, ⟨0, 0, 0⟩, ⟨0, 0, 0⟩] : List Centroid))
      (assignStep [⟨10, 20, 30⟩, ⟨0, 0, 0⟩, ⟨0, 0, 0⟩] [⟨10, 20, 30⟩])
      [⟨10, 20, 30⟩]
      = some [⟨10, 20, 30⟩, ⟨0, 0, 0⟩, ⟨0, 0, 0⟩] := by
    norm_num [updateChecked, assignStep, assign, assignGo, distSq,
      update_centroids, groupPixels, centroidOfGroup, List.range_succ]
  have hcl2 : allClose [⟨10, 20, 30⟩, ⟨0, 0, 0⟩, ⟨0, 0, 0⟩]
      [⟨10, 20, 30⟩, ⟨0, 0, 0⟩, ⟨0, 0, 0⟩] = true := by
    norm_num [allClose, Centroid.is_close]
  have hrun : runChecked [⟨10, 20, 30⟩] 100
      [⟨10, 20, 30⟩, ⟨10, 20, 30⟩, ⟨10, 20, 30⟩]
      = some [⟨10, 20, 30⟩, ⟨0, 0, 0⟩, ⟨0, 0, 0⟩] := by
    rw [show (100 : ℕ) = 99 + 1 from rfl,
      runChecked_cont [⟨10, 20, 30⟩] 99 _ _ hupd1 hcl1,
      show (99 : ℕ) = 98 + 1 from rfl,
      runChecked_stop [⟨10, 20, 30⟩] 98 _ _ hupd2 hcl2]
  have hrec : reconstruct_image [⟨10, 20, 30⟩, ⟨0, 0, 0⟩, ⟨0, 0, 0⟩]
      [⟨10, 20, 30⟩] = some [⟨10, 20, 30⟩] := by
    norm_num [reconstruct_image, closest_centroid_index, minByGo, distSq,
      quantizePixel, quantizeChannel]
    exact ⟨rfl, rfl, rfl⟩
  refine ⟨by simp, ?_⟩
  simp only [pipeline, hnew, hrun, hrec]
